import Mathlib

/-!
Verification of the producer/consumer IPC examples of the OS-Lab repository
(anonymous pipe, named FIFO and POSIX shared memory variants, all contained
in the source file of section 6).  Every definition below is a shallow
embedding of the corresponding C function; the theorems check the claims of
the natural-language specification against these embeddings.
-/

/-- Size in bytes of every transport buffer: the constant BUFFER_SIZE that all
three C variants define as 1024. -/
def BUFFER_SIZE : Nat := 1024

namespace WireCodec

/-- Byte image of one C int (32 bit, twos-complement, little endian host
order): the four bytes that write_all sends when the producer writes
sizeof(int) bytes of an int value. -/
def intToBytes (x : Int) : List Nat :=
  let n := (x % 4294967296).toNat
  [n % 256, n / 256 % 256, n / 65536 % 256, n / 16777216 % 256]

/-- Reassemble a C int from its four little-endian bytes, interpreting the
32-bit pattern as twos-complement, exactly as the consumer reading
sizeof(int) bytes into an int does. -/
def bytesToInt (b0 b1 b2 b3 : Nat) : Int :=
  let n := b0 + 256 * b1 + 65536 * b2 + 16777216 * b3
  if n < 2147483648 then (n : Int) else (n : Int) - 4294967296

/-- Decode a byte sequence whose length is a multiple of four into the int
array it holds: the effect of the consumer reading num * sizeof(int) bytes
into an int array. -/
def decodeInts : List Nat → Option (List Int)
  | [] => some []
  | b0 :: b1 :: b2 :: b3 :: rest =>
      (decodeInts rest).map fun l => bytesToInt b0 b1 b2 b3 :: l
  | _ => none

/-- Split off exactly n leading bytes of a stream; none models read_all
reporting failure because the stream ends (the writer closed) before n bytes
arrived. -/
def takeExact : Nat → List Nat → Option (List Nat × List Nat)
  | 0, xs => some ([], xs)
  | _ + 1, [] => none
  | n + 1, x :: xs => (takeExact n xs).map fun p => (x :: p.1, p.2)

/-- Interpret a four-byte header chunk as the count field; other shapes never
occur on the paths we prove about. -/
def word : List Nat → Int
  | [b0, b1, b2, b3] => bytesToInt b0 b1 b2 b3
  | _ => 0

/-- The byte sequence the pipe and FIFO producers emit for a validated
message: sizeof(int) bytes of the count, then count ints of payload. -/
def encode_message (num : Int) (arr : List Int) : List Nat :=
  intToBytes num ++ arr.flatMap intToBytes

end WireCodec

/-- Outcome of the write_all and read_all loops.  ok total is the return of
the accumulated total; broken is the C return value -1 after a single
primitive call returned zero or a negative value; starved marks a run whose
oracle of primitive results was exhausted (in C the call would block). -/
inductive IoOutcome
  | ok (total : Nat)
  | broken
  | starved
deriving DecidableEq, Repr

/-- read_all of the pipe and FIFO variants.  The kernel read primitive is
modelled by the oracle list results, holding the value each successive call
returns.  The loop runs while total < bytes, fails hard on a non-positive
result and otherwise accumulates the transferred amount. -/
def read_all : List Int → Nat → Nat → IoOutcome
  | [], bytes, total => if bytes ≤ total then .ok total else .starved
  | r :: rest, bytes, total =>
      if bytes ≤ total then .ok total
      else if r ≤ 0 then .broken
      else read_all rest bytes (total + r.toNat)

/-- write_all of the pipe and FIFO variants; its loop is textually identical
to read_all with the write primitive in place of read. -/
def write_all : List Int → Nat → Nat → IoOutcome
  | [], bytes, total => if bytes ≤ total then .ok total else .starved
  | r :: rest, bytes, total =>
      if bytes ≤ total then .ok total
      else if r ≤ 0 then .broken
      else write_all rest bytes (total + r.toNat)

/-- POSIX guarantee that one primitive call never transfers more than the
remaining requested amount: each oracle entry is at most the bytes still
missing when it is consumed. -/
def bounded : List Int → Nat → Bool
  | [], _ => true
  | r :: rest, n => decide (r.toNat ≤ n) && bounded rest (n - r.toNat)

/-- Total number of bytes transferred by the first k primitive calls. -/
def transferredBefore (results : List Int) (k : Nat) : Nat :=
  ((results.take k).map Int.toNat).sum

namespace Shm

/-- The 1024-byte mapped segment viewed, as both C processes view it, as an
array of int slots; slot j stands for bytes 4 j .. 4 j + 3. -/
def Segment : Type := Nat → Int

/-- One store shm_data[i] = v. -/
def store (s : Segment) (i : Nat) (v : Int) : Segment :=
  fun j => if j = i then v else s j

/-- The payload store loop of the shared-memory child: successive stores of
the scanned values at slots i, i+1, ... -/
def writeLoop : Segment → Nat → List Int → Segment
  | s, _, [] => s
  | s, i, x :: xs => writeLoop (store s i x) (i + 1) xs

/-- Result of the shared-memory child: the segment it leaves behind, whether
it reached its success exit, and the unlink flag it passed to cleanup_shm on
the exit path it took. -/
structure ChildResult where
  seg : Segment
  success : Bool
  unlinkFlag : Bool

/-- child_process of the shared-memory variant.  numInput is the scanf result
for the element count (none = scan failure); arrInput holds the values the
payload scanf loop obtains, in order, the list ending early if a scan fails.
The child validates 0 < num <= BUFFER_SIZE / 4 - 1 = 255 before touching the
segment, stores num at slot 0, then stores the scanned values at slots
1..num; every exit path calls cleanup_shm with unlink flag 0. -/
def child_process (seg : Segment) (numInput : Option Int) (arrInput : List Int) :
    ChildResult :=
  match numInput with
  | none => ⟨seg, false, false⟩
  | some num =>
      if num ≤ 0 ∨ 255 < num then ⟨seg, false, false⟩
      else
        let seg1 := store seg 0 num
        let seg2 := writeLoop seg1 1 (arrInput.take num.toNat)
        ⟨seg2, decide (num.toNat ≤ arrInput.length), false⟩

/-- The payload read loop of the shared-memory parent: slots 1..n. -/
def readPayload (seg : Segment) (n : Nat) : List Int :=
  (List.range n).map fun i => seg (i + 1)

/-- The decode step of the shared-memory parent, after its wait call: read
slot 0 as the count, reject it unless 0 < num <= 255, else read the payload
slots.  none models the invalid-count error exit. -/
def parent_read (seg : Segment) : Option (Int × List Int) :=
  let num := seg 0
  if num ≤ 0 ∨ 255 < num then none
  else some (num, readPayload seg num.toNat)

/-- Terminal outcome of the shared-memory session in the parent. -/
inductive Outcome
  | completed (printed : List Int)
  | failedWait
  | failedInvalid
deriving DecidableEq, Repr

/-- parent_process of the shared-memory variant, exactly as written: it calls
wait(NULL) and treats ANY non-zero return as an error (the branch reading
if wait(NULL) != 0), then validates slot 0 and prints the payload.  The Bool
is the unlink flag passed to cleanup_shm, 1 on every parent path. -/
def parent_process (waitResult : Int) (seg : Segment) : Outcome × Bool :=
  if waitResult ≠ 0 then (.failedWait, true)
  else
    let num := seg 0
    if num ≤ 0 ∨ 255 < num then (.failedInvalid, true)
    else (.completed (readPayload seg num.toNat), true)

/-- The evident intent of the same parent: treat only the wait error return
-1 as failure (the convention every other variant in the file follows, i.e.
check_result against -1).  Used to exhibit the divergence of the code from
the specified Completed outcome. -/
def parent_process_intended (waitResult : Int) (seg : Segment) : Outcome × Bool :=
  if waitResult = -1 then (.failedWait, true)
  else
    let num := seg 0
    if num ≤ 0 ∨ 255 < num then (.failedInvalid, true)
    else (.completed (readPayload seg num.toNat), true)

/-- Whole shared-memory session on a zero-initialised segment (ftruncate
zero-fills the new segment): the child writes, exits, wait returns the child
pid, the parent runs. -/
def session (childPid : Int) (numInput : Option Int) (arrInput : List Int) :
    Outcome × Bool :=
  parent_process childPid (child_process (fun _ => 0) numInput arrInput).seg

/-- Same session under the intended wait check. -/
def session_intended (childPid : Int) (numInput : Option Int)
    (arrInput : List Int) : Outcome × Bool :=
  parent_process_intended childPid (child_process (fun _ => 0) numInput arrInput).seg

/-- Events of the shared-memory parent, in program order: return of the
wait call, a load of a segment slot, the unlink during cleanup, the exits. -/
inductive PEv
  | joinRet (r : Int)
  | load (idx : Nat)
  | unlinkName
  | exitFail
  | exitOk
deriving DecidableEq, Repr

/-- Ordered event trace of parent_process: wait returns first; only then, and
only on the zero-return branch, does the parent load slot 0, validate it and
load the payload slots; cleanup runs last on every path. -/
def parent_trace (waitResult : Int) (seg : Segment) : List PEv :=
  PEv.joinRet waitResult ::
    (if waitResult ≠ 0 then [PEv.unlinkName, PEv.exitFail]
     else
       PEv.load 0 ::
         (if seg 0 ≤ 0 ∨ 255 < seg 0 then [PEv.unlinkName, PEv.exitFail]
          else ((List.range (seg 0).toNat).map fun i => PEv.load (i + 1)) ++
            [PEv.unlinkName, PEv.exitOk]))

/-- Segment slot indices the validated child stores and the parent reads:
slot 0 and slots 1..num. -/
def accessedIndices (num : Nat) : List Nat :=
  0 :: (List.range num).map (· + 1)

end Shm

namespace Pipe

/-- child_process of the anonymous-pipe variant (the FIFO child follows the
same logic).  All scanf input is collected and validated against
0 < num <= BUFFER_SIZE / 4 = 256 before the first write_all; the first
component is the byte sequence written to the pipe, the second whether the
child reached its success exit. -/
def child_process (numInput : Option Int) (arrInput : List Int) :
    List Nat × Bool :=
  match numInput with
  | none => ([], false)
  | some num =>
      if num ≤ 0 ∨ 256 < num then ([], false)
      else if arrInput.length < num.toNat then ([], false)
      else (WireCodec.encode_message num (arrInput.take num.toNat), true)

/-- parent_process of the anonymous-pipe variant (the FIFO parent follows the
same logic), applied to the fully delivered byte stream: read_all of four
header bytes (failing if the stream is shorter), malloc of num ints (the C
code performs NO validation of num here; a negative num makes the size_t
conversion huge and malloc fail, modelled by none), read_all of num * 4
payload bytes, decode.  -/
def parent_process (stream : List Nat) : Option (Int × List Int) :=
  match WireCodec.takeExact 4 stream with
  | none => none
  | some h =>
      let num := WireCodec.word h.1
      if num < 0 then none
      else
        match WireCodec.takeExact (num.toNat * 4) h.2 with
        | none => none
        | some p => (WireCodec.decodeInts p.1).map fun arr => (num, arr)

end Pipe

namespace Fifo

/-- The FIFO child validates and writes exactly as the pipe child does. -/
def child_process := Pipe.child_process

/-- The FIFO parent reads and decodes exactly as the pipe parent does. -/
def parent_process := Pipe.parent_process

/-- Cleanup actions a FIFO process can take on an exit path. -/
inductive CAct
  | closeFd
  | unlinkPath
deriving DecidableEq, Repr

/-- The cleanup actions the FIFO child performs on the exit path selected by
the given inputs, read directly off each branch of its C body: open failure
exits through handle_error with nothing open; scanf failure, an invalid
count, a payload scan failure, a write_all failure and the success path all
close the descriptor; the malloc failure path exits through handle_error
without closing.  No branch unlinks the FIFO path. -/
def child_cleanup (openOk mallocOk : Bool) (numInput : Option Int)
    (arrInput : List Int) (writeOk : Bool) : List CAct :=
  if openOk = false then []
  else
    match numInput with
    | none => [CAct.closeFd]
    | some num =>
        if num ≤ 0 ∨ 256 < num then [CAct.closeFd]
        else if mallocOk = false then []
        else if arrInput.length < num.toNat then [CAct.closeFd]
        else if writeOk = false then [CAct.closeFd]
        else [CAct.closeFd]

/-- The errno value EEXIST. -/
def EEXIST : Nat := 17

/-- The mkfifo handling at the top of the FIFO main: mkfifoErr is none when
mkfifo succeeded, some e when it failed with errno e.  The result tells
whether the program goes on to fork (true) or exits through handle_error
before the fork (false): only an EEXIST failure is tolerated. -/
def main_setup (mkfifoErr : Option Nat) : Bool :=
  match mkfifoErr with
  | none => true
  | some e => if e = EEXIST then true else false

end Fifo

namespace WireCodec

lemma bytesToInt_comp (x : Int) (h1 : -2147483648 ≤ x) (h2 : x < 2147483648) :
    bytesToInt ((x % 4294967296).toNat % 256) ((x % 4294967296).toNat / 256 % 256)
      ((x % 4294967296).toNat / 65536 % 256) ((x % 4294967296).toNat / 16777216 % 256) = x := by
  unfold bytesToInt
  dsimp only
  split <;> omega

lemma word_intToBytes (x : Int) (h1 : -2147483648 ≤ x) (h2 : x < 2147483648) :
    word (intToBytes x) = x := by
  have e : word (intToBytes x) =
      bytesToInt ((x % 4294967296).toNat % 256) ((x % 4294967296).toNat / 256 % 256)
        ((x % 4294967296).toNat / 65536 % 256) ((x % 4294967296).toNat / 16777216 % 256) := rfl
  rw [e, bytesToInt_comp x h1 h2]

lemma decodeInts_append_intToBytes (x : Int) (h1 : -2147483648 ≤ x) (h2 : x < 2147483648)
    (bs : List Nat) :
    decodeInts (intToBytes x ++ bs) = (decodeInts bs).map fun l => x :: l := by
  have e : decodeInts (intToBytes x ++ bs) = (decodeInts bs).map fun l =>
      bytesToInt ((x % 4294967296).toNat % 256) ((x % 4294967296).toNat / 256 % 256)
        ((x % 4294967296).toNat / 65536 % 256) ((x % 4294967296).toNat / 16777216 % 256) :: l := rfl
  rw [e]
  simp only [bytesToInt_comp x h1 h2]

lemma decodeInts_flatMap (arr : List Int)
    (hrange : ∀ x ∈ arr, -2147483648 ≤ x ∧ x < 2147483648) :
    decodeInts (arr.flatMap intToBytes) = some arr := by
  induction arr with
  | nil => rfl
  | cons x xs ih =>
      have hx := hrange x (List.mem_cons_self x xs)
      rw [List.flatMap_cons, decodeInts_append_intToBytes x hx.1 hx.2,
        ih fun y hy => hrange y (List.mem_cons_of_mem x hy)]
      rfl

lemma takeExact_append (xs ys : List Nat) :
    takeExact xs.length (xs ++ ys) = some (xs, ys) := by
  induction xs with
  | nil => rfl
  | cons a l ih => simp [takeExact, ih]

lemma length_intToBytes (x : Int) : (intToBytes x).length = 4 := rfl

lemma length_flatMap_intToBytes (arr : List Int) :
    (arr.flatMap intToBytes).length = 4 * arr.length := by
  induction arr with
  | nil => rfl
  | cons x xs ih => simp [List.flatMap_cons, intToBytes, ih]; omega

end WireCodec

namespace Shm

lemma writeLoop_apply_lt (xs : List Int) : ∀ (s : Segment) (i j : Nat), j < i →
    writeLoop s i xs j = s j := by
  induction xs with
  | nil => intro s i j _; rfl
  | cons x t ih =>
      intro s i j h
      show writeLoop (store s i x) (i + 1) t j = s j
      rw [ih (store s i x) (i + 1) j (by omega)]
      have hne : j ≠ i := by omega
      simp [store, hne]

lemma writeLoop_apply_mem (xs : List Int) : ∀ (s : Segment) (i j : Nat), i ≤ j →
    j < i + xs.length → writeLoop s i xs j = xs.getD (j - i) 0 := by
  induction xs with
  | nil => intro s i j h1 h2; simp at h2; omega
  | cons x t ih =>
      intro s i j h1 h2
      show writeLoop (store s i x) (i + 1) t j = _
      by_cases hj : j = i
      · subst hj
        rw [writeLoop_apply_lt t _ _ _ (by omega)]
        simp [store]
      · have h1' : i + 1 ≤ j := by omega
        have h2' : j < (i + 1) + t.length := by
          simp only [List.length_cons] at h2; omega
        rw [ih (store s i x) (i + 1) j h1' h2']
        have he : j - i = (j - (i + 1)) + 1 := by omega
        rw [he, List.getD_cons_succ]

lemma map_getD_range (arr : List Int) :
    (List.range arr.length).map (fun i => arr.getD i 0) = arr := by
  apply List.ext_get
  · simp
  · intro n h1 h2
    simp [List.getD_eq_getElem, List.getElem_range, List.getElem?_eq_getElem h2]

lemma shm_roundtrip (num : Int) (arr : List Int) (h1 : 1 ≤ num) (h2 : num ≤ 255)
    (hlen : arr.length = num.toNat) (seg : Segment) :
    parent_read ((child_process seg (some num) arr).seg) = some (num, arr) := by
  have hvalid : ¬(num ≤ 0 ∨ 255 < num) := by omega
  have htake : arr.take num.toNat = arr := by
    rw [← hlen]; exact List.take_length arr
  have hseg : (child_process seg (some num) arr).seg =
      writeLoop (store seg 0 num) 1 arr := by
    simp [child_process, hvalid, htake]
  rw [hseg]
  have h0 : writeLoop (store seg 0 num) 1 arr 0 = num := by
    rw [writeLoop_apply_lt arr _ _ _ (by omega)]; simp [store]
  have hpay : readPayload (writeLoop (store seg 0 num) 1 arr) num.toNat = arr := by
    unfold readPayload
    rw [← hlen]
    have hcongr : ∀ i ∈ List.range arr.length,
        writeLoop (store seg 0 num) 1 arr (i + 1) = arr.getD i 0 := by
      intro i hi
      rw [List.mem_range] at hi
      rw [writeLoop_apply_mem arr _ _ _ (by omega) (by omega)]
      congr 1
    rw [List.map_congr_left hcongr, map_getD_range]
  unfold parent_read
  dsimp only
  rw [h0, if_neg hvalid, hpay]

end Shm

namespace WireCodec

lemma takeExact_length (xs : List Nat) : takeExact xs.length xs = some (xs, []) := by
  have h := takeExact_append xs []
  rwa [List.append_nil] at h

end WireCodec

namespace Pipe

lemma pipe_roundtrip (num : Int) (arr : List Int) (h1 : 1 ≤ num) (h2 : num ≤ 256)
    (hlen : arr.length = num.toNat)
    (hrange : ∀ x ∈ arr, -2147483648 ≤ x ∧ x < 2147483648) :
    parent_process (child_process (some num) arr).1 = some (num, arr) ∧
      (child_process (some num) arr).2 = true := by
  have hvalid : ¬(num ≤ 0 ∨ 256 < num) := by omega
  have hnlt : ¬(arr.length < num.toNat) := by omega
  have htake : arr.take num.toNat = arr := by
    rw [← hlen]; exact List.take_length arr
  have hchild : child_process (some num) arr =
      (WireCodec.encode_message num arr, true) := by
    simp [child_process, hvalid, hnlt, htake]
  rw [hchild]
  refine ⟨?_, rfl⟩
  have hhdr : WireCodec.takeExact 4 (WireCodec.encode_message num arr) =
      some (WireCodec.intToBytes num, arr.flatMap WireCodec.intToBytes) := by
    rw [WireCodec.encode_message, ← WireCodec.length_intToBytes num]
    exact WireCodec.takeExact_append _ _
  have hword : WireCodec.word (WireCodec.intToBytes num) = num :=
    WireCodec.word_intToBytes num (by omega) (by omega)
  have hbody : WireCodec.takeExact (num.toNat * 4) (arr.flatMap WireCodec.intToBytes) =
      some (arr.flatMap WireCodec.intToBytes, []) := by
    have hl : (arr.flatMap WireCodec.intToBytes).length = num.toNat * 4 := by
      rw [WireCodec.length_flatMap_intToBytes, hlen]; omega
    rw [← hl]
    exact WireCodec.takeExact_length _
  unfold parent_process
  rw [hhdr]
  dsimp only
  rw [hword, if_neg (by omega : ¬ num < 0), hbody]
  dsimp only
  rw [WireCodec.decodeInts_flatMap arr hrange]
  rfl

end Pipe

/-- C3: for every message with count in the valid range and payload of
exactly that length (each element a 32-bit int), the producer encoding
followed by the consumer decoding yields the identical message on every
transport variant: anonymous pipe and named FIFO (count limit 256) via the
byte stream, shared memory (count limit 255) via the mapped segment. -/
theorem roundtrip_all_transports (num : Int) (arr : List Int) (h1 : 1 ≤ num)
    (hlen : arr.length = num.toNat)
    (hrange : ∀ x ∈ arr, -2147483648 ≤ x ∧ x < 2147483648) :
    (num ≤ 256 →
      Pipe.parent_process (Pipe.child_process (some num) arr).1 = some (num, arr) ∧
      Fifo.parent_process (Fifo.child_process (some num) arr).1 = some (num, arr)) ∧
    (num ≤ 255 → ∀ seg : Shm.Segment,
      Shm.parent_read ((Shm.child_process seg (some num) arr).seg) = some (num, arr)) := by
  constructor
  · intro h2
    have h := Pipe.pipe_roundtrip num arr h1 h2 hlen hrange
    exact ⟨h.1, h.1⟩
  · intro h2 seg
    exact Shm.shm_roundtrip num arr h1 h2 hlen seg

/-- Witness for C3 at the message of the specification scenario. -/
theorem roundtrip_all_transports_witness :
    Pipe.parent_process (Pipe.child_process (some 3) [10, 20, 30]).1 =
        some (3, [10, 20, 30]) ∧
      Shm.parent_read ((Shm.child_process (fun _ => 0) (some 3) [10, 20, 30]).seg) =
        some (3, [10, 20, 30]) :=
  ⟨((roundtrip_all_transports 3 [10, 20, 30] (by decide) (by decide)
      (by decide)).1 (by decide)).1,
    (roundtrip_all_transports 3 [10, 20, 30] (by decide) (by decide)
      (by decide)).2 (by decide) (fun _ => 0)⟩

lemma write_all_eq_read_all : ∀ (rs : List Int) (bytes total : Nat),
    write_all rs bytes total = read_all rs bytes total := by
  intro rs
  induction rs with
  | nil => intro bytes total; rfl
  | cons r rest ih =>
      intro bytes total
      simp only [write_all, read_all, ih]

lemma read_all_broken_iff (rs : List Int) : ∀ (bytes total : Nat),
    read_all rs bytes total = IoOutcome.broken ↔
      ∃ k, k < rs.length ∧ rs.getD k 1 ≤ 0 ∧
        total + transferredBefore rs k < bytes ∧
        ∀ j, j < k → 0 < rs.getD j 1 := by
  induction rs with
  | nil =>
      intro bytes total
      constructor
      · intro h
        by_cases hbt : bytes ≤ total <;> simp [read_all, hbt] at h
      · rintro ⟨k, hk, -⟩
        simp at hk
  | cons r rest ih =>
      intro bytes total
      by_cases hbt : bytes ≤ total
      · simp only [read_all, if_pos hbt]
        constructor
        · intro h; cases h
        · rintro ⟨k, hk, hneg, hlt, hpos⟩
          have hT : 0 ≤ transferredBefore (r :: rest) k := Nat.zero_le _
          omega
      · by_cases hr : r ≤ 0
        · simp only [read_all, if_neg hbt, if_pos hr]
          constructor
          · intro _
            refine ⟨0, by simp, by simpa using hr, ?_, fun j hj => absurd hj (Nat.not_lt_zero j)⟩
            simp only [transferredBefore, List.take_zero, List.map_nil, List.sum_nil]
            omega
          · intro _; trivial
        · simp only [read_all, if_neg hbt, if_neg hr]
          rw [ih bytes (total + r.toNat)]
          have hTcons : ∀ k, transferredBefore (r :: rest) (k + 1) =
              r.toNat + transferredBefore rest k := by
            intro k
            simp [transferredBefore, List.take_succ_cons]
          constructor
          · rintro ⟨k, hk, hneg, hlt, hpos⟩
            refine ⟨k + 1, by simpa using hk, by simpa using hneg, ?_, ?_⟩
            · rw [hTcons k]; omega
            · intro j hj
              cases j with
              | zero => simpa using (by omega : (0 : Int) < r)
              | succ j' =>
                  simp only [List.getD_cons_succ]
                  exact hpos j' (by omega)
          · rintro ⟨k, hk, hneg, hlt, hpos⟩
            cases k with
            | zero =>
                simp only [List.getD_cons_zero] at hneg
                omega
            | succ k' =>
                refine ⟨k', by simpa using hk, by simpa using hneg, ?_, fun j hj => ?_⟩
                · rw [hTcons k'] at hlt; omega
                · have := hpos (j + 1) (by omega)
                  simpa using this

lemma read_all_ok_eq (rs : List Int) : ∀ (bytes total t : Nat), total ≤ bytes →
    bounded rs (bytes - total) = true →
    read_all rs bytes total = IoOutcome.ok t → t = bytes := by
  induction rs with
  | nil =>
      intro bytes total t hle hb h
      by_cases hbt : bytes ≤ total <;> simp [read_all, hbt] at h
      omega
  | cons r rest ih =>
      intro bytes total t hle hb h
      by_cases hbt : bytes ≤ total
      · simp only [read_all, if_pos hbt, IoOutcome.ok.injEq] at h
        omega
      · simp only [read_all, if_neg hbt] at h
        by_cases hr : r ≤ 0
        · simp [if_pos hr] at h
        · simp only [if_neg hr] at h
          simp only [bounded, Bool.and_eq_true, decide_eq_true_eq] at hb
          obtain ⟨hb1, hb2⟩ := hb
          refine ih bytes (total + r.toNat) t (by omega) ?_ h
          have he : bytes - (total + r.toNat) = (bytes - total) - r.toNat := by omega
          rw [he]
          exact hb2

lemma read_all_complete (rs : List Int) : ∀ (bytes total : Nat), total ≤ bytes →
    (∀ r ∈ rs, 0 < r) → bounded rs (bytes - total) = true →
    bytes ≤ total + (rs.map Int.toNat).sum →
    read_all rs bytes total = IoOutcome.ok bytes := by
  induction rs with
  | nil =>
      intro bytes total hle _ _ hsum
      simp only [List.map_nil, List.sum_nil, Nat.add_zero] at hsum
      have he : total = bytes := by omega
      simp [read_all, he]
  | cons r rest ih =>
      intro bytes total hle hpos hb hsum
      by_cases hbt : bytes ≤ total
      · have he : total = bytes := by omega
        simp [read_all, hbt, he]
      · have hrpos : 0 < r := hpos r (List.mem_cons_self r rest)
        have hr : ¬ r ≤ 0 := by omega
        simp only [read_all, if_neg hbt, if_neg hr]
        simp only [bounded, Bool.and_eq_true, decide_eq_true_eq] at hb
        obtain ⟨hb1, hb2⟩ := hb
        refine ih bytes (total + r.toNat) (by omega)
          (fun x hx => hpos x (List.mem_cons_of_mem r hx)) ?_ ?_
        · have he : bytes - (total + r.toNat) = (bytes - total) - r.toNat := by omega
          rw [he]
          exact hb2
        · simp only [List.map_cons, List.sum_cons] at hsum
          omega

lemma bounded_replicate (n : Nat) : bounded (List.replicate n (1 : Int)) n = true := by
  induction n with
  | zero => rfl
  | succ m ih =>
      rw [List.replicate_succ]
      simp only [bounded, Bool.and_eq_true, decide_eq_true_eq]
      refine ⟨by simp, ?_⟩
      simpa using ih

/-- C6: under the POSIX bound that no single primitive call transfers more
than the remaining request, the write_all and read_all loops fail (return -1,
here broken) exactly when some single primitive call returns a zero or
negative result while the accumulated total is still short of the request,
every earlier call having made positive progress; and whenever they return
normally, the returned total is exactly the requested byte count. -/
theorem transfer_loop_failure_semantics (results : List Int) (bytes : Nat)
    (hb : bounded results bytes = true) :
    (read_all results bytes 0 = IoOutcome.broken ↔
      ∃ k, k < results.length ∧ results.getD k 1 ≤ 0 ∧
        transferredBefore results k < bytes ∧
        ∀ j, j < k → 0 < results.getD j 1) ∧
    (∀ t, read_all results bytes 0 = IoOutcome.ok t → t = bytes) ∧
    (write_all results bytes 0 = IoOutcome.broken ↔
      ∃ k, k < results.length ∧ results.getD k 1 ≤ 0 ∧
        transferredBefore results k < bytes ∧
        ∀ j, j < k → 0 < results.getD j 1) ∧
    (∀ t, write_all results bytes 0 = IoOutcome.ok t → t = bytes) := by
  have hb0 : bounded results (bytes - 0) = true := by simpa using hb
  have hiff := read_all_broken_iff results bytes 0
  simp only [Nat.zero_add] at hiff
  refine ⟨hiff, fun t h => read_all_ok_eq results bytes 0 t (Nat.zero_le _) hb0 h, ?_, ?_⟩
  · rw [write_all_eq_read_all]
    exact hiff
  · intro t h
    rw [write_all_eq_read_all] at h
    exact read_all_ok_eq results bytes 0 t (Nat.zero_le _) hb0 h

/-- Witness for C6: a first call returning -1 on a one-byte request makes
read_all fail. -/
theorem transfer_loop_failure_semantics_witness :
    read_all [-1] 1 0 = IoOutcome.broken :=
  (transfer_loop_failure_semantics [-1] 1 (by decide)).1.mpr
    ⟨0, by decide, by decide, by decide, fun j hj => absurd hj (Nat.not_lt_zero j)⟩

/-- C7: the write_all and read_all loops terminate with the full transfer
whenever every primitive call transfers at least one byte (and, per POSIX,
at most the remaining request, with enough total data available); in
particular a primitive that always transfers exactly one byte per call
completes any requested byte count. -/
theorem transfer_loop_completes :
    (∀ (results : List Int) (bytes : Nat), (∀ r ∈ results, 0 < r) →
      bounded results bytes = true → bytes ≤ (results.map Int.toNat).sum →
      read_all results bytes 0 = IoOutcome.ok bytes ∧
        write_all results bytes 0 = IoOutcome.ok bytes) ∧
    ∀ bytes : Nat,
      read_all (List.replicate bytes 1) bytes 0 = IoOutcome.ok bytes ∧
        write_all (List.replicate bytes 1) bytes 0 = IoOutcome.ok bytes := by
  have main : ∀ (results : List Int) (bytes : Nat), (∀ r ∈ results, 0 < r) →
      bounded results bytes = true → bytes ≤ (results.map Int.toNat).sum →
      read_all results bytes 0 = IoOutcome.ok bytes ∧
        write_all results bytes 0 = IoOutcome.ok bytes := by
    intro results bytes hpos hb hsum
    have h := read_all_complete results bytes 0 (Nat.zero_le _) hpos (by simpa using hb)
      (by simpa using hsum)
    exact ⟨h, by rw [write_all_eq_read_all]; exact h⟩
  refine ⟨main, fun bytes => ?_⟩
  refine main (List.replicate bytes 1) bytes ?_ (bounded_replicate bytes) ?_
  · intro r hr
    rw [List.eq_of_mem_replicate hr]
    omega
  · simp [List.map_replicate]

/-- Witness for C7: a request of three bytes served by calls transferring two
then one byte completes exactly. -/
theorem transfer_loop_completes_witness :
    read_all [2, 1] 3 0 = IoOutcome.ok 3 ∧ write_all [2, 1] 3 0 = IoOutcome.ok 3 :=
  transfer_loop_completes.1 [2, 1] 3 (by decide) (by decide) (by decide)

/-- C1: in the shared-memory variant, every load the consumer performs on the
mapped segment comes strictly after the return of its wait call: the wait
return is the first event of the parent trace (position 0) and every load
sits at a later position. -/
theorem shm_consumer_reads_after_join (w : Int) (seg : Shm.Segment) (k i : Nat)
    (h : (Shm.parent_trace w seg).getD k Shm.PEv.exitOk = Shm.PEv.load i) :
    0 < k ∧
      (Shm.parent_trace w seg).getD 0 Shm.PEv.exitOk = Shm.PEv.joinRet w := by
  cases k with
  | zero =>
      rw [Shm.parent_trace, List.getD_cons_zero] at h
      cases h
  | succ n =>
      exact ⟨Nat.succ_pos n, by rw [Shm.parent_trace, List.getD_cons_zero]⟩

/-- Witness for C1: in a session whose wait returned 0 over a segment holding
count 1, the event at position 1 is the load of slot 0 and the join return
precedes it at position 0. -/
theorem shm_consumer_reads_after_join_witness :
    0 < 1 ∧
      (Shm.parent_trace 0 (fun _ => 1)).getD 0 Shm.PEv.exitOk = Shm.PEv.joinRet 0 :=
  shm_consumer_reads_after_join 0 (fun _ => 1) 1 0 (by decide)

/-- C2 (code bug): on the specified scenario, producer message count 1 and
payload 42, the parent checks wait(NULL) != 0, but wait returns the child
pid (any positive value, 1234 here) on success, so the session takes the
wait-failure exit instead of completing; under the evidently intended check
against -1 the very same session completes with payload 42.  The name is
unlinked in both cases. -/
theorem shm_session_wait_check_bug :
    Shm.session 1234 (some 1) [42] = (Shm.Outcome.failedWait, true) ∧
      Shm.session_intended 1234 (some 1) [42] = (Shm.Outcome.completed [42], true) := by
  decide

/-- Counterexample to C4 as stated: the pipe (and FIFO) consumer does not
reject a decoded count of zero; decoding the four-byte stream holding count 0
succeeds with the empty message instead of failing. -/
theorem pipe_consumer_accepts_zero_count :
    Pipe.parent_process [0, 0, 0, 0] = some (0, []) := by
  decide

/-- C4 amended: only the shared-memory consumer validates the decoded count,
rejecting a count that is non-positive or above 255 before reading any
payload slot; the pipe and FIFO consumers perform no count validation and a
zero count decodes successfully as an empty message. -/
theorem count_validation_shm_only :
    (∀ seg : Shm.Segment, seg 0 ≤ 0 ∨ 255 < seg 0 → Shm.parent_read seg = none) ∧
    (∀ seg : Shm.Segment, seg 0 ≤ 0 ∨ 255 < seg 0 → ∀ i : Nat,
      Shm.PEv.load (i + 1) ∉ Shm.parent_trace 0 seg) ∧
    Pipe.parent_process [0, 0, 0, 0] = some (0, []) := by
  refine ⟨?_, ?_, by decide⟩
  · intro seg h
    unfold Shm.parent_read
    dsimp only
    rw [if_pos h]
  · intro seg h i hmem
    unfold Shm.parent_trace at hmem
    rw [if_neg (by simp : ¬((0 : Int) ≠ 0)), if_pos h] at hmem
    simp at hmem

/-- Witness for C4: a zeroed segment is rejected by the shared-memory
consumer with no payload load, while the pipe consumer accepts the zero
count. -/
theorem count_validation_shm_only_witness :
    Shm.parent_read (fun _ => 0) = none ∧
      Shm.PEv.load 1 ∉ Shm.parent_trace 0 (fun _ => 0) ∧
      Pipe.parent_process [0, 0, 0, 0] = some (0, []) :=
  ⟨count_validation_shm_only.1 (fun _ => 0) (Or.inl (by decide)),
    count_validation_shm_only.2.1 (fun _ => 0) (Or.inl (by decide)) 0,
    count_validation_shm_only.2.2⟩

/-- C5: a count that fails validation (non-positive, or above the per-variant
capacity limit, 256 for pipe and FIFO, 255 for shared memory) is rejected by
the producer before any transport write: the pipe and FIFO children write no
byte, and the shared-memory child leaves the segment untouched. -/
theorem producer_rejects_before_transport_write (num : Int) (arrInput : List Int) :
    (num ≤ 0 ∨ 256 < num →
      (Pipe.child_process (some num) arrInput).1 = [] ∧
      (Fifo.child_process (some num) arrInput).1 = []) ∧
    (num ≤ 0 ∨ 255 < num → ∀ seg : Shm.Segment,
      (Shm.child_process seg (some num) arrInput).seg = seg) := by
  constructor
  · intro h
    constructor
    · unfold Pipe.child_process
      dsimp only
      rw [if_pos h]
    · unfold Fifo.child_process Pipe.child_process
      dsimp only
      rw [if_pos h]
  · intro h seg
    unfold Shm.child_process
    dsimp only
    rw [if_pos h]

/-- Witness for C5: the rejected count -3 produces no pipe bytes, no FIFO
bytes, and an unchanged segment. -/
theorem producer_rejects_before_transport_write_witness :
    (Pipe.child_process (some (-3)) []).1 = [] ∧
      (Fifo.child_process (some (-3)) []).1 = [] ∧
      (Shm.child_process (fun _ => 0) (some (-3)) []).seg = (fun _ => 0) :=
  ⟨(producer_rejects_before_transport_write (-3) []).1 (Or.inl (by decide)) |>.1,
    (producer_rejects_before_transport_write (-3) []).1 (Or.inl (by decide)) |>.2,
    (producer_rejects_before_transport_write (-3) []).2 (Or.inl (by decide)) (fun _ => 0)⟩

/-- C8: on every exit path of the non-owner child, the named resource
survives: the shared-memory child passes unlink flag 0 to cleanup_shm on
every path, and no exit path of the FIFO child contains an unlink of the
FIFO name. -/
theorem nonowner_never_unlinks :
    (∀ (seg : Shm.Segment) (numInput : Option Int) (arrInput : List Int),
      (Shm.child_process seg numInput arrInput).unlinkFlag = false) ∧
    (∀ (openOk mallocOk : Bool) (numInput : Option Int) (arrInput : List Int)
      (writeOk : Bool),
      Fifo.CAct.unlinkPath ∉
        Fifo.child_cleanup openOk mallocOk numInput arrInput writeOk) := by
  constructor
  · intro seg numInput arrInput
    cases numInput with
    | none => rfl
    | some num =>
        by_cases h : num ≤ 0 ∨ 255 < num
        · simp [Shm.child_process, h]
        · simp [Shm.child_process, h]
  · intro openOk mallocOk numInput arrInput writeOk
    unfold Fifo.child_cleanup
    cases numInput <;> split_ifs <;> simp

/-- C9: the FIFO main tolerates exactly an EEXIST failure of mkfifo (the
session then proceeds to the fork using the existing entry); every other
mkfifo failure exits through handle_error before the fork. -/
theorem fifo_eexist_tolerated (r : Option Nat) :
    Fifo.main_setup r = true ↔ r = none ∨ r = some Fifo.EEXIST := by
  cases r with
  | none => simp [Fifo.main_setup]
  | some e =>
      by_cases he : e = Fifo.EEXIST
      · simp [Fifo.main_setup, he]
      · simp [Fifo.main_setup, he]

/-- C10: under the validated bound 1 <= num <= 255, every slot the
shared-memory processes access, slot 0 and slots 1..num, lies within the
1024-byte segment, and the maximal message num = 255 ends exactly at the
segment boundary. -/
theorem shm_accesses_in_bounds (num : Nat) (h1 : 1 ≤ num) (h2 : num ≤ 255) :
    (∀ i ∈ Shm.accessedIndices num, 4 * i + 4 ≤ BUFFER_SIZE) ∧
      4 * 255 + 4 = BUFFER_SIZE := by
  refine ⟨?_, rfl⟩
  intro i hi
  unfold Shm.accessedIndices at hi
  rcases List.mem_cons.mp hi with h | h
  · subst h
    decide
  · obtain ⟨j, hj, rfl⟩ := List.mem_map.mp h
    rw [List.mem_range] at hj
    simp only [BUFFER_SIZE]
    omega

/-- Witness for C10: the highest slot of the maximal message, slot 255, ends
exactly at byte 1024. -/
theorem shm_accesses_in_bounds_witness :
    4 * 255 + 4 ≤ BUFFER_SIZE ∧ 4 * 255 + 4 = BUFFER_SIZE :=
  ⟨(shm_accesses_in_bounds 255 (by decide) (by decide)).1 255 (by decide),
    (shm_accesses_in_bounds 255 (by decide) (by decide)).2⟩
